import Mathlib

/-!
Shallow embedding of the sandy-ai chat client's think/answer splitter
(`src/app/components/Chat.tsx`).  Strings are modelled as `List Char`;
JavaScript string operations (`includes`, `match` with the lazy regex
`<think>([^]*?)</think>`, `replace`, `trim`) are modelled as first-occurrence
searches over the character list.
-/

namespace SandyAI

/-- Character list of a string literal (JS strings, at the code-point level). -/
def strL (s : String) : List Char := s.data

/-- The code points removed by `String.prototype.trim` (ECMAScript WhiteSpace
and LineTerminator). -/
def jsWhitespaceCodes : List Nat :=
  [9, 10, 11, 12, 13, 32, 160, 5760,
   8192, 8193, 8194, 8195, 8196, 8197, 8198, 8199, 8200, 8201, 8202,
   8232, 8233, 8239, 8287, 12288, 65279]

def isJsWhitespace (c : Char) : Bool := jsWhitespaceCodes.contains c.toNat

def trimLeft : List Char → List Char
  | [] => []
  | c :: cs => if isJsWhitespace c then trimLeft cs else c :: cs

/-- Embedding of `String.prototype.trim`: strip whitespace from both ends. -/
def trim (s : List Char) : List Char := (trimLeft ((trimLeft s).reverse)).reverse

/-- Predicate `startsWith s pat`: holds when `pat` is a leading segment of `s`. -/
def startsWith (s pat : List Char) : Bool :=
  match pat with
  | [] => true
  | p :: ps =>
    match s with
    | [] => false
    | c :: cs => if c = p then startsWith cs ps else false

/-- Split `s` at the first occurrence of `pat`: `some (a, b)` with
`s = a ++ pat ++ b` and no occurrence of `pat` starting inside `a`.
This is the search underlying JavaScript `indexOf` / first-match semantics. -/
def splitFirst (pat : List Char) : List Char → Option (List Char × List Char)
  | [] => none
  | c :: cs =>
    if startsWith (c :: cs) pat then some ([], (c :: cs).drop pat.length)
    else
      match splitFirst pat cs with
      | some (a, b) => some (c :: a, b)
      | none => none

/-- Embedding of `s.includes(pat)`. -/
def containsTag (pat s : List Char) : Bool := (splitFirst pat s).isSome

/-- Predicate `occursAt pat s i`: an occurrence of `pat` starts at index `i` of `s`. -/
def occursAt (pat s : List Char) (i : Nat) : Bool := startsWith (s.drop i) pat

/-- The opening delimiter literal. -/
def tagOpen : List Char := strL "<think>"

/-- The closing delimiter literal. -/
def tagClose : List Char := strL "</think>"

/-- Embedding of `content.match(/<think>([^]*?)<\/think>/)`: the lazy regex
matches at the first `<think>`, with the group extending to the first
`</think>` after it.  Returns `(pre, inner, post)` where the full buffer is
`pre ++ tagOpen ++ inner ++ tagClose ++ post`. -/
def thinkMatch (s : List Char) : Option (List Char × List Char × List Char) :=
  match splitFirst tagOpen s with
  | none => none
  | some (pre, rest) =>
    match splitFirst tagClose rest with
    | none => none
    | some (inner, post) => some (pre, inner, post)

/-- Embedding of `s.replace(pat, '')` for a plain-string pattern: delete the
first occurrence of `pat` (JS `replace` with a string replaces only the
first occurrence). -/
def replaceFirst (pat s : List Char) : List Char :=
  match splitFirst pat s with
  | some (a, b) => a ++ b
  | none => s

/-- The `StreamingState` record of `Chat.tsx` (lines 9-13). -/
structure StreamingState where
  thinking : List Char
  content : List Char
  isThinking : Bool
deriving DecidableEq

/-- The initial value passed to `useState<StreamingState>` (lines 45-49),
also the value the `onFinish` callback resets to (lines 57-64). -/
def initialState : StreamingState :=
  { thinking := [], content := [], isThinking := true }

/-- One evaluation of the streaming `useEffect` body (Chat.tsx lines 74-106)
on the cumulative buffer `content` of the in-progress assistant message,
given the previous `streamingState`.  Mirrors the four branches:
`thinkMatch`, `includes('<think>')`, `isThinking`, else. -/
def streamStep (prev : StreamingState) (content : List Char) : StreamingState :=
  match thinkMatch content with
  | some (pre, inner, post) =>
    { thinking := trim inner, content := trim (pre ++ post), isThinking := false }
  | none =>
    if containsTag tagOpen content then
      { thinking := trim (replaceFirst tagOpen content), content := [], isThinking := true }
    else if prev.isThinking then
      { prev with thinking := trim content }
    else
      { prev with content := trim content }

/-- Result record of `parseMessage` (Chat.tsx lines 15-26): the completed
message parser returns `{thinking, content}` when the regex matches and
`{content}` (no `thinking` field, modelled as `none`) otherwise. -/
structure ParsedMessage where
  thinking : Option (List Char)
  content : List Char
deriving DecidableEq

/-- Embedding of `parseMessage` (Chat.tsx lines 15-26). -/
def parseMessage (content : List Char) : ParsedMessage :=
  match thinkMatch content with
  | some (pre, inner, post) => { thinking := some (trim inner), content := trim (pre ++ post) }
  | none => { thinking := none, content := trim content }

/-- Events driving the streaming state: arrival of a (cumulative) buffer for
the current assistant message, or the end of the stream. -/
inductive ChatEvent
  | chunk (buf : List Char)
  | finish
deriving DecidableEq

/-- How the component updates `streamingState` on each event: a chunk runs
the `useEffect` parse step, `onFinish` (Chat.tsx lines 57-64) resets to the
initial state. -/
def chatStep (s : StreamingState) : ChatEvent → StreamingState
  | ChatEvent.chunk b => streamStep s b
  | ChatEvent.finish => initialState

/-- The sequence of states produced by successive `useEffect` evaluations on
the cumulative buffers `bufs 0, bufs 1, ...` of one assistant message,
starting from the reset state. -/
def runSteps (bufs : Nat → List Char) : Nat → StreamingState
  | 0 => initialState
  | k + 1 => streamStep (runSteps bufs k) (bufs k)


/-! ### Basic facts about `startsWith` -/

theorem startsWith_nil (s : List Char) : startsWith s [] = true := by
  cases s <;> rfl

theorem startsWith_nil_cons (p : Char) (ps : List Char) :
    startsWith [] (p :: ps) = false := rfl

theorem startsWith_cons (c p : Char) (cs ps : List Char) :
    startsWith (c :: cs) (p :: ps) = if c = p then startsWith cs ps else false := rfl

/-- Characterization: `startsWith` is exactly the leading-segment relation. -/
theorem startsWith_iff (pat s : List Char) :
    startsWith s pat = true ↔ ∃ r, s = pat ++ r := by
  induction pat generalizing s with
  | nil =>
    constructor
    · intro _; exact ⟨s, rfl⟩
    · intro _; exact startsWith_nil s
  | cons p ps ih =>
    cases s with
    | nil =>
      constructor
      · intro h; exact absurd h (by rw [startsWith_nil_cons]; simp)
      · rintro ⟨r, hr⟩; exact absurd hr (by simp)
    | cons c cs =>
      constructor
      · intro h
        rw [startsWith_cons] at h
        by_cases hc : c = p
        · rw [if_pos hc] at h
          obtain ⟨r, hr⟩ := (ih cs).mp h
          exact ⟨r, by rw [hc, hr, List.cons_append]⟩
        · rw [if_neg hc] at h
          exact absurd h (by simp)
      · rintro ⟨r, hr⟩
        rw [List.cons_append, List.cons.injEq] at hr
        obtain ⟨hc, hcs⟩ := hr
        rw [startsWith_cons, if_pos hc]
        exact (ih cs).mpr ⟨r, hcs⟩

theorem startsWith_length_le {pat s : List Char} (h : startsWith s pat = true) :
    pat.length ≤ s.length := by
  obtain ⟨r, hr⟩ := (startsWith_iff pat s).mp h
  subst hr; simp

theorem startsWith_append_right {pat s : List Char} (t : List Char)
    (h : startsWith s pat = true) : startsWith (s ++ t) pat = true := by
  obtain ⟨r, hr⟩ := (startsWith_iff pat s).mp h
  exact (startsWith_iff pat (s ++ t)).mpr ⟨r ++ t, by rw [hr, List.append_assoc]⟩

theorem startsWith_of_append {pat s t : List Char}
    (h : startsWith (s ++ t) pat = true) (hl : pat.length ≤ s.length) :
    startsWith s pat = true := by
  obtain ⟨r, hr⟩ := (startsWith_iff pat (s ++ t)).mp h
  have htake : s.take pat.length = pat := by
    have h1 : (s ++ t).take pat.length = s.take pat.length :=
      List.take_append_of_le_length hl
    have h2 : (s ++ t).take pat.length = pat := by
      rw [hr]; exact List.take_left pat r
    rw [← h1, h2]
  refine (startsWith_iff pat s).mpr ⟨s.drop pat.length, ?_⟩
  conv_lhs => rw [← List.take_append_drop pat.length s, htake]

/-! ### Soundness and completeness of `splitFirst` -/

theorem splitFirst_nil (pat : List Char) : splitFirst pat [] = none := rfl

theorem splitFirst_cons (pat : List Char) (c : Char) (cs : List Char) :
    splitFirst pat (c :: cs) =
      if startsWith (c :: cs) pat then some ([], (c :: cs).drop pat.length)
      else
        match splitFirst pat cs with
        | some (a, b) => some (c :: a, b)
        | none => none := rfl

/-- Soundness of the first-occurrence search: a successful split decomposes
the string, and no occurrence of the pattern starts earlier. -/
theorem splitFirst_sound {pat s a b : List Char} (h : splitFirst pat s = some (a, b)) :
    s = a ++ pat ++ b ∧ ∀ i, i < a.length → occursAt pat s i = false := by
  induction s generalizing a b with
  | nil => rw [splitFirst_nil] at h; exact absurd h (by simp)
  | cons c cs ih =>
    rw [splitFirst_cons] at h
    cases hsw : startsWith (c :: cs) pat with
    | true =>
      rw [if_pos hsw] at h
      obtain ⟨r, hr⟩ := (startsWith_iff pat (c :: cs)).mp hsw
      rw [Option.some.injEq, Prod.mk.injEq] at h
      obtain ⟨ha, hb⟩ := h
      subst ha
      refine ⟨?_, fun i hi => absurd hi (by simp)⟩
      rw [← hb, hr, List.nil_append, List.drop_left]
    | false =>
      rw [if_neg (by simp [hsw])] at h
      cases hsp : splitFirst pat cs with
      | none => rw [hsp] at h; exact absurd h (by simp)
      | some ab =>
        obtain ⟨a', b'⟩ := ab
        rw [hsp] at h
        rw [show (match some (a', b') with
              | some (a, b) => some (c :: a, b)
              | none => (none : Option (List Char × List Char))) = some (c :: a', b')
            from rfl] at h
        rw [Option.some.injEq, Prod.mk.injEq] at h
        obtain ⟨ha, hb⟩ := h
        subst hb
        obtain ⟨hdec, hmin⟩ := ih hsp
        constructor
        · rw [← ha, hdec]; simp
        · intro i hi
          cases i with
          | zero =>
            rw [occursAt, List.drop_zero]
            exact hsw
          | succ j =>
            have hj : j < a'.length := by
              rw [← ha] at hi; simpa using hi
            rw [occursAt, List.drop_succ_cons]
            have := hmin j hj
            rwa [occursAt] at this

/-- Completeness: if the string decomposes at a position with no earlier
occurrence, `splitFirst` finds exactly that decomposition. -/
theorem splitFirst_of_min {pat : List Char} (a b : List Char) (hp : pat ≠ [])
    (h : ∀ i, i < a.length → occursAt pat (a ++ pat ++ b) i = false) :
    splitFirst pat (a ++ pat ++ b) = some (a, b) := by
  induction a with
  | nil =>
    rw [List.nil_append]
    cases pat with
    | nil => exact absurd rfl hp
    | cons p ps =>
      rw [List.cons_append, splitFirst_cons]
      have hsw : startsWith (p :: (ps ++ b)) (p :: ps) = true :=
        (startsWith_iff _ _).mpr ⟨b, by rw [List.cons_append]⟩
      rw [if_pos hsw]
      have hd : (p :: (ps ++ b)).drop (p :: ps).length = b := by
        rw [show p :: (ps ++ b) = (p :: ps) ++ b from by rw [List.cons_append]]
        exact List.drop_left _ _
      rw [hd]
  | cons c a' ih =>
    have hshape : (c :: a') ++ pat ++ b = c :: (a' ++ pat ++ b) := by
      rw [List.cons_append, List.cons_append]
    rw [hshape, splitFirst_cons]
    have h0 : startsWith (c :: (a' ++ pat ++ b)) pat = false := by
      have h00 := h 0 (by simp)
      rwa [occursAt, List.drop_zero, hshape] at h00
    rw [if_neg (by rw [h0]; simp)]
    have ih' : splitFirst pat (a' ++ pat ++ b) = some (a', b) := by
      refine ih (fun i hi => ?_)
      have h1 := h (i + 1) (by simpa using Nat.succ_lt_succ hi)
      rw [occursAt, hshape, List.drop_succ_cons] at h1
      rwa [occursAt]
    rw [ih']

/-- Appending on the right preserves a successful first-occurrence split. -/
theorem splitFirst_append {pat s a b : List Char} (t : List Char)
    (h : splitFirst pat s = some (a, b)) :
    splitFirst pat (s ++ t) = some (a, b ++ t) := by
  induction s generalizing a b with
  | nil => rw [splitFirst_nil] at h; exact absurd h (by simp)
  | cons c cs ih =>
    rw [splitFirst_cons] at h
    rw [List.cons_append, splitFirst_cons]
    cases hsw : startsWith (c :: cs) pat with
    | true =>
      rw [if_pos hsw] at h
      obtain ⟨r, hr⟩ := (startsWith_iff pat (c :: cs)).mp hsw
      have hsw' : startsWith (c :: (cs ++ t)) pat = true := by
        rw [show c :: (cs ++ t) = (c :: cs) ++ t from by rw [List.cons_append]]
        exact startsWith_append_right t hsw
      rw [if_pos hsw']
      rw [Option.some.injEq, Prod.mk.injEq] at h
      obtain ⟨ha, hb⟩ := h
      subst ha
      have hb' : (c :: cs).drop pat.length = r := by rw [hr, List.drop_left]
      have hd : (c :: (cs ++ t)).drop pat.length = r ++ t := by
        rw [show c :: (cs ++ t) = pat ++ (r ++ t) from by
          rw [show c :: (cs ++ t) = (c :: cs) ++ t from by rw [List.cons_append], hr,
            List.append_assoc]]
        exact List.drop_left _ _
      rw [hd, ← hb, hb']
    | false =>
      rw [if_neg (by simp [hsw])] at h
      cases hsp : splitFirst pat cs with
      | none => rw [hsp] at h; exact absurd h (by simp)
      | some ab =>
        obtain ⟨a', b'⟩ := ab
        rw [hsp] at h
        rw [show (match some (a', b') with
              | some (a, b) => some (c :: a, b)
              | none => (none : Option (List Char × List Char))) = some (c :: a', b')
            from rfl] at h
        rw [Option.some.injEq, Prod.mk.injEq] at h
        obtain ⟨ha, hb⟩ := h
        have hlen : pat.length ≤ (c :: cs).length := by
          obtain ⟨hdec, _⟩ := splitFirst_sound hsp
          rw [hdec]
          simp [List.length_append]
          omega
        have hsw' : startsWith (c :: (cs ++ t)) pat = false := by
          cases hcon : startsWith (c :: (cs ++ t)) pat with
          | false => rfl
          | true =>
            have htrue : startsWith ((c :: cs) ++ t) pat = true := by
              rwa [List.cons_append]
            rw [startsWith_of_append htrue hlen] at hsw
            exact absurd hsw (by simp)
        rw [if_neg (by simp [hsw']), ih hsp, ← ha, ← hb]

/-- A decomposition witnesses that the search succeeds. -/
theorem splitFirst_isSome_of_decomp (pat x y : List Char) (hp : pat ≠ []) :
    (splitFirst pat (x ++ pat ++ y)).isSome = true := by
  induction x with
  | nil =>
    rw [List.nil_append]
    cases pat with
    | nil => exact absurd rfl hp
    | cons p ps =>
      rw [List.cons_append, splitFirst_cons]
      have hsw : startsWith (p :: (ps ++ y)) (p :: ps) = true :=
        (startsWith_iff _ _).mpr ⟨y, by rw [List.cons_append]⟩
      rw [if_pos hsw]
      rfl
  | cons c x' ih =>
    have hshape : (c :: x') ++ pat ++ y = c :: (x' ++ pat ++ y) := by
      rw [List.cons_append, List.cons_append]
    rw [hshape, splitFirst_cons]
    cases hsw : startsWith (c :: (x' ++ pat ++ y)) pat with
    | true => simp
    | false =>
      rw [if_neg (by simp)]
      cases hsp : splitFirst pat (x' ++ pat ++ y) with
      | none => rw [hsp] at ih; exact absurd ih (by simp)
      | some ab => obtain ⟨a, b⟩ := ab; simp [hsp]

/-- An occurrence anywhere makes the search succeed. -/
theorem splitFirst_isSome_of_occursAt {pat s : List Char} {i : Nat} (hp : pat ≠ [])
    (h : occursAt pat s i = true) : (splitFirst pat s).isSome = true := by
  rw [occursAt] at h
  obtain ⟨r, hr⟩ := (startsWith_iff pat (s.drop i)).mp h
  have hs : s = s.take i ++ pat ++ r := by
    conv_lhs => rw [← List.take_append_drop i s, hr]
    rw [List.append_assoc]
  rw [hs]
  exact splitFirst_isSome_of_decomp pat (s.take i) r hp

/-- No occurrence at all: the search fails. -/
theorem splitFirst_eq_none {pat s : List Char}
    (h : ∀ x y, s ≠ x ++ pat ++ y) : splitFirst pat s = none := by
  cases hsp : splitFirst pat s with
  | none => rfl
  | some ab =>
    obtain ⟨a, b⟩ := ab
    obtain ⟨hdec, _⟩ := splitFirst_sound hsp
    exact absurd hdec (h a b)

/-- Conversely, `includes` being false rules out any decomposition. -/
theorem no_decomp_of_containsTag_false {pat s : List Char} (hp : pat ≠ [])
    (h : containsTag pat s = false) : ∀ x y, s ≠ x ++ pat ++ y := by
  intro x y hxy
  have : (splitFirst pat s).isSome = true := by
    rw [hxy]; exact splitFirst_isSome_of_decomp pat x y hp
  rw [containsTag] at h
  rw [h] at this
  exact absurd this (by simp)

/-- Short strings contain no occurrence of `pat`. -/
theorem no_decomp_of_short {pat s : List Char} (h : s.length < pat.length) :
    ∀ x y, s ≠ x ++ pat ++ y := by
  intro x y hxy
  have := congrArg List.length hxy
  simp [List.length_append] at this
  omega

/-! ### Facts about `thinkMatch` -/

/-- Computation of `thinkMatch` on a buffer whose first opening tag is at `pre` and whose
first closing tag after it ends `inner`. -/
theorem thinkMatch_of_min (pre inner post : List Char)
    (h1 : ∀ i, i < pre.length →
      occursAt tagOpen (pre ++ tagOpen ++ inner ++ tagClose ++ post) i = false)
    (h2 : ∀ j, j < inner.length →
      occursAt tagClose (inner ++ tagClose ++ post) j = false) :
    thinkMatch (pre ++ tagOpen ++ inner ++ tagClose ++ post) = some (pre, inner, post) := by
  have hshape : pre ++ tagOpen ++ inner ++ tagClose ++ post
      = pre ++ tagOpen ++ (inner ++ tagClose ++ post) := by
    simp [List.append_assoc]
  have hopen : splitFirst tagOpen (pre ++ tagOpen ++ (inner ++ tagClose ++ post))
      = some (pre, inner ++ tagClose ++ post) := by
    refine splitFirst_of_min pre (inner ++ tagClose ++ post) (by decide) ?_
    intro i hi
    have := h1 i hi
    rwa [hshape] at this
  have hclose : splitFirst tagClose (inner ++ tagClose ++ post) = some (inner, post) :=
    splitFirst_of_min inner post (by decide) h2
  rw [hshape]
  simp only [thinkMatch, hopen, hclose]

/-- Appending to the buffer extends a successful match on the right only. -/
theorem thinkMatch_append {s pre inner post : List Char} (t : List Char)
    (h : thinkMatch s = some (pre, inner, post)) :
    thinkMatch (s ++ t) = some (pre, inner, post ++ t) := by
  cases h1 : splitFirst tagOpen s with
  | none =>
    simp only [thinkMatch, h1] at h
    exact Option.noConfusion h
  | some pr =>
    obtain ⟨pre', rest⟩ := pr
    cases h2 : splitFirst tagClose rest with
    | none =>
      simp only [thinkMatch, h1, h2] at h
      exact Option.noConfusion h
    | some ip =>
      obtain ⟨inner', post'⟩ := ip
      simp only [thinkMatch, h1, h2, Option.some.injEq, Prod.mk.injEq] at h
      obtain ⟨hpre, hinner, hpost⟩ := h
      subst hpre hinner hpost
      simp only [thinkMatch, splitFirst_append t h1, splitFirst_append t h2]

/-- Soundness of `thinkMatch`: a match decomposes the buffer around the tags. -/
theorem thinkMatch_sound {s pre inner post : List Char}
    (h : thinkMatch s = some (pre, inner, post)) :
    s = pre ++ tagOpen ++ inner ++ tagClose ++ post := by
  cases h1 : splitFirst tagOpen s with
  | none =>
    simp only [thinkMatch, h1] at h
    exact Option.noConfusion h
  | some pr =>
    obtain ⟨pre', rest⟩ := pr
    cases h2 : splitFirst tagClose rest with
    | none =>
      simp only [thinkMatch, h1, h2] at h
      exact Option.noConfusion h
    | some ip =>
      obtain ⟨inner', post'⟩ := ip
      simp only [thinkMatch, h1, h2, Option.some.injEq, Prod.mk.injEq] at h
      obtain ⟨hpre, hinner, hpost⟩ := h
      subst hpre hinner hpost
      obtain ⟨hs, _⟩ := splitFirst_sound h1
      obtain ⟨hr, _⟩ := splitFirst_sound h2
      rw [hs, hr]
      simp [List.append_assoc]

/-- Variant of `thinkMatch_of_min` phrasing the closing-tag minimality as
positions in the full buffer. -/
theorem thinkMatch_of_min_full (pre inner post : List Char)
    (h1 : ∀ i, i < pre.length →
      occursAt tagOpen (pre ++ tagOpen ++ inner ++ tagClose ++ post) i = false)
    (h2 : ∀ j, j < inner.length →
      occursAt tagClose (pre ++ tagOpen ++ inner ++ tagClose ++ post)
        (pre.length + tagOpen.length + j) = false) :
    thinkMatch (pre ++ tagOpen ++ inner ++ tagClose ++ post) = some (pre, inner, post) := by
  have hsh : pre ++ tagOpen ++ inner ++ tagClose ++ post
      = (pre ++ tagOpen) ++ (inner ++ tagClose ++ post) := by
    simp [List.append_assoc]
  refine thinkMatch_of_min pre inner post h1 (fun j hj => ?_)
  have hfull := h2 j hj
  rw [occursAt] at hfull ⊢
  have hd : (pre ++ tagOpen ++ inner ++ tagClose ++ post).drop
      (pre.length + tagOpen.length + j) = (inner ++ tagClose ++ post).drop j := by
    rw [hsh, ← List.length_append pre tagOpen, ← List.drop_drop, List.drop_left]
  rwa [hd] at hfull

/-- Short buffers cannot contain a complete delimited region. -/
theorem no_pair_of_short {s : List Char}
    (h : s.length < tagOpen.length + tagClose.length) :
    ∀ x y z, s ≠ x ++ tagOpen ++ y ++ tagClose ++ z := by
  intro x y z hxy
  have hlen := congrArg List.length hxy
  have h7 : tagOpen.length = 7 := by decide
  have h8 : tagClose.length = 8 := by decide
  simp only [List.length_append, h7, h8] at hlen
  rw [h7, h8] at h
  omega

/-! ### Branch lemmas for the streaming parse step -/

/-- Branch 1 (Chat.tsx lines 83-89): the regex matched. -/
theorem streamStep_match {prev : StreamingState} {s pre inner post : List Char}
    (h : thinkMatch s = some (pre, inner, post)) :
    streamStep prev s =
      { thinking := trim inner, content := trim (pre ++ post), isThinking := false } := by
  simp only [streamStep, h]

/-- Branch 2 (Chat.tsx lines 90-95): opening tag present, no match. -/
theorem streamStep_open {prev : StreamingState} {s : List Char}
    (h1 : thinkMatch s = none) (h2 : containsTag tagOpen s = true) :
    streamStep prev s =
      { thinking := trim (replaceFirst tagOpen s), content := [], isThinking := true } := by
  simp [streamStep, h1, h2]

/-- Branch 3 (Chat.tsx lines 96-100): no tag, still in thinking mode. -/
theorem streamStep_idle_thinking {prev : StreamingState} {s : List Char}
    (h1 : thinkMatch s = none) (h2 : containsTag tagOpen s = false)
    (h3 : prev.isThinking = true) :
    streamStep prev s = { prev with thinking := trim s } := by
  simp [streamStep, h1, h2, h3]

/-- Branch 4 (Chat.tsx lines 101-106): no tag, in content mode. -/
theorem streamStep_idle_answer {prev : StreamingState} {s : List Char}
    (h1 : thinkMatch s = none) (h2 : containsTag tagOpen s = false)
    (h3 : prev.isThinking = false) :
    streamStep prev s = { prev with content := trim s } := by
  simp [streamStep, h1, h2, h3]

/-! ### The claims -/

/-- C1: for every cumulative buffer containing both the opening delimiter and
a matching closing delimiter — written below as the decomposition around the
first such pair — the streaming parse step produces `thinking` equal to the
trimmed text strictly between them, `content` equal to the trimmed buffer
with the entire delimited region (both tags included) removed, and
`isThinking = false`; the witness instantiates this at
`"<think>step one</think>Final answer."`. -/
theorem claim_C1 (prev : StreamingState) (pre inner post : List Char)
    (h1 : ∀ i, i < pre.length →
      occursAt tagOpen (pre ++ tagOpen ++ inner ++ tagClose ++ post) i = false)
    (h2 : ∀ j, j < inner.length →
      occursAt tagClose (pre ++ tagOpen ++ inner ++ tagClose ++ post)
        (pre.length + tagOpen.length + j) = false) :
    streamStep prev (pre ++ tagOpen ++ inner ++ tagClose ++ post) =
      { thinking := trim inner, content := trim (pre ++ post), isThinking := false } :=
  streamStep_match (thinkMatch_of_min_full pre inner post h1 h2)

theorem claim_C1_witness :
    streamStep initialState (strL "<think>step one</think>Final answer.") =
      { thinking := strL "step one", content := strL "Final answer.", isThinking := false } := by
  have h := claim_C1 initialState [] (strL "step one") (strL "Final answer.")
    (by decide) (by decide)
  have e : ([] : List Char) ++ tagOpen ++ strL "step one" ++ tagClose ++ strL "Final answer."
      = strL "<think>step one</think>Final answer." := by decide
  rw [e] at h
  rw [h]
  decide

/-- C2 counterexample: the buffer `"a<think>b"` contains the opening delimiter
(after the prefix `"a"`) and no closing delimiter anywhere, yet the parse
step's `thinking` is `"ab"` — the buffer with the tag deleted, prefix text
retained — and not the trimmed text after the opening tag, `"b"`.  This
refutes C2 as stated. -/
theorem claim_C2_cex :
    strL "a<think>b" = strL "a" ++ tagOpen ++ strL "b" ∧
    containsTag tagClose (strL "a<think>b") = false ∧
    (∀ x y, strL "a<think>b" ≠ x ++ tagClose ++ y) ∧
    (streamStep initialState (strL "a<think>b")).thinking ≠ trim (strL "b") ∧
    (streamStep initialState (strL "a<think>b")).thinking = strL "ab" := by
  refine ⟨by decide, by decide, ?_, by decide, by decide⟩
  exact no_decomp_of_containsTag_false (by decide) (by decide)

/-- C2 (amended): for every cumulative buffer containing the opening delimiter
(first occurrence after `pre`) but no closing delimiter, the parse step
produces `thinking` equal to the trimmed buffer with the first opening tag
deleted (text before the tag, if any, is retained), `content` equal to the
empty string, and `isThinking = true`; an unterminated opening tag is not an
error. -/
theorem claim_C2_amended (prev : StreamingState) (pre rest : List Char)
    (h1 : ∀ i, i < pre.length → occursAt tagOpen (pre ++ tagOpen ++ rest) i = false)
    (h2 : ∀ x y, pre ++ tagOpen ++ rest ≠ x ++ tagClose ++ y) :
    streamStep prev (pre ++ tagOpen ++ rest) =
      { thinking := trim (pre ++ rest), content := [], isThinking := true } := by
  have hopen : splitFirst tagOpen (pre ++ tagOpen ++ rest) = some (pre, rest) :=
    splitFirst_of_min pre rest (by decide) h1
  have hclose : splitFirst tagClose rest = none := by
    cases hc : splitFirst tagClose rest with
    | none => rfl
    | some ab =>
      obtain ⟨a, b⟩ := ab
      obtain ⟨hdec, _⟩ := splitFirst_sound hc
      exact absurd (show pre ++ tagOpen ++ rest = (pre ++ tagOpen ++ a) ++ tagClose ++ b by
        rw [hdec]; simp [List.append_assoc]) (h2 _ _)
  have hm : thinkMatch (pre ++ tagOpen ++ rest) = none := by
    simp only [thinkMatch, hopen, hclose]
  have hct : containsTag tagOpen (pre ++ tagOpen ++ rest) = true := by
    rw [containsTag, hopen]; rfl
  have hrf : replaceFirst tagOpen (pre ++ tagOpen ++ rest) = pre ++ rest := by
    simp only [replaceFirst, hopen]
  rw [streamStep_open hm hct, hrf]

theorem claim_C2_witness :
    streamStep initialState (strL "a<think>b") =
      { thinking := strL "ab", content := [], isThinking := true } := by
  have h := claim_C2_amended initialState (strL "a") (strL "b") (by decide)
    (no_decomp_of_containsTag_false (by decide) (by decide))
  have e : strL "a" ++ tagOpen ++ strL "b" = strL "a<think>b" := by decide
  rw [e] at h
  rw [h]
  decide

/-- C3: for every cumulative buffer containing no opening delimiter, when the
prior streaming state has `isThinking = true` (the default at message start),
the parse step sets `thinking` to the entire trimmed buffer and `isThinking`
remains true (with `content` untouched). -/
theorem claim_C3 (prev : StreamingState) (s : List Char)
    (h : ∀ x y, s ≠ x ++ tagOpen ++ y) (hp : prev.isThinking = true) :
    streamStep prev s =
      { thinking := trim s, content := prev.content, isThinking := true } := by
  have hsp : splitFirst tagOpen s = none := splitFirst_eq_none h
  have hm : thinkMatch s = none := by simp only [thinkMatch, hsp]
  have hct : containsTag tagOpen s = false := by rw [containsTag, hsp]; rfl
  rw [streamStep_idle_thinking hm hct hp]
  rw [show ({ prev with thinking := trim s } : StreamingState)
      = ⟨trim s, prev.content, prev.isThinking⟩ from rfl, hp]

theorem claim_C3_witness :
    streamStep initialState (strL "hello") =
      { thinking := strL "hello", content := [], isThinking := true } := by
  have h := claim_C3 initialState (strL "hello") (no_decomp_of_short (by decide)) rfl
  rw [h]
  decide

/-- C4: for every cumulative buffer containing no opening delimiter, when the
prior streaming state has `isThinking = false`, the parse step sets `content`
to the entire trimmed buffer while `thinking` and `isThinking` are left
unchanged from the prior state. -/
theorem claim_C4 (prev : StreamingState) (s : List Char)
    (h : ∀ x y, s ≠ x ++ tagOpen ++ y) (hp : prev.isThinking = false) :
    streamStep prev s =
      { thinking := prev.thinking, content := trim s, isThinking := prev.isThinking } := by
  have hsp : splitFirst tagOpen s = none := splitFirst_eq_none h
  have hm : thinkMatch s = none := by simp only [thinkMatch, hsp]
  have hct : containsTag tagOpen s = false := by rw [containsTag, hsp]; rfl
  rw [streamStep_idle_answer hm hct hp]

theorem claim_C4_witness :
    streamStep ⟨strL "w", strL "c", false⟩ (strL "answer") =
      ⟨strL "w", strL "answer", false⟩ := by
  have h := claim_C4 ⟨strL "w", strL "c", false⟩ (strL "answer")
    (no_decomp_of_short (by decide)) rfl
  rw [h]
  decide

/-- C5: delimiter matching is non-greedy and recognizes only the first
opening/closing pair — for a buffer with two complete delimited regions,
`thinking` is the trimmed interior of the first region only, and the second
region (tags included) stays inside `content`. -/
theorem claim_C5 (prev : StreamingState) (pre i1 mid i2 post : List Char)
    (h1 : ∀ i, i < pre.length → occursAt tagOpen
      (pre ++ tagOpen ++ i1 ++ tagClose ++ (mid ++ tagOpen ++ i2 ++ tagClose ++ post))
      i = false)
    (h2 : ∀ j, j < i1.length → occursAt tagClose
      (pre ++ tagOpen ++ i1 ++ tagClose ++ (mid ++ tagOpen ++ i2 ++ tagClose ++ post))
      (pre.length + tagOpen.length + j) = false) :
    streamStep prev
      (pre ++ tagOpen ++ i1 ++ tagClose ++ (mid ++ tagOpen ++ i2 ++ tagClose ++ post)) =
      { thinking := trim i1,
        content := trim (pre ++ (mid ++ tagOpen ++ i2 ++ tagClose ++ post)),
        isThinking := false } :=
  streamStep_match
    (thinkMatch_of_min_full pre i1 (mid ++ tagOpen ++ i2 ++ tagClose ++ post) h1 h2)

theorem claim_C5_witness :
    streamStep initialState (strL "<think>a</think>b<think>c</think>d") =
      { thinking := strL "a", content := strL "b<think>c</think>d",
        isThinking := false } := by
  have h := claim_C5 initialState [] (strL "a") (strL "b") (strL "c") (strL "d")
    (by decide) (by decide)
  have e : ([] : List Char) ++ tagOpen ++ strL "a" ++ tagClose ++
      (strL "b" ++ tagOpen ++ strL "c" ++ tagClose ++ strL "d")
      = strL "<think>a</think>b<think>c</think>d" := by decide
  rw [e] at h
  rw [h]
  decide

/-- Cumulative buffers: later buffers extend earlier ones. -/
theorem append_chain {bufs : Nat → List Char}
    (hmono : ∀ n, ∃ t, bufs (n + 1) = bufs n ++ t) :
    ∀ k m, k ≤ m → ∃ t, bufs m = bufs k ++ t := by
  intro k m hkm
  induction hkm with
  | refl => exact ⟨[], by rw [List.append_nil]⟩
  | step _h ih =>
    obtain ⟨t, ht⟩ := ih
    obtain ⟨u, hu⟩ := hmono _
    exact ⟨t ++ u, by rw [hu, ht, List.append_assoc]⟩

/-- In a run over cumulative buffers starting from the reset state,
`isThinking = false` can only have been produced by the regex-match branch,
so the buffer of that evaluation already contains a complete pair. -/
theorem runSteps_false_pair {bufs : Nat → List Char}
    (hmono : ∀ n, ∃ t, bufs (n + 1) = bufs n ++ t) :
    ∀ k, (runSteps bufs (k + 1)).isThinking = false →
      ∃ pre inner post, thinkMatch (bufs k) = some (pre, inner, post) := by
  intro k
  induction k with
  | zero =>
    intro hk
    cases hm : thinkMatch (bufs 0) with
    | some m =>
      obtain ⟨pre, inner, post⟩ := m
      exact ⟨pre, inner, post, rfl⟩
    | none =>
      exfalso
      rw [show runSteps bufs 1 = streamStep initialState (bufs 0) from rfl] at hk
      cases hct : containsTag tagOpen (bufs 0) with
      | true =>
        rw [streamStep_open hm hct] at hk
        exact Bool.noConfusion hk
      | false =>
        rw [streamStep_idle_thinking hm hct rfl] at hk
        exact Bool.noConfusion hk
  | succ j ih =>
    intro hk
    cases hm : thinkMatch (bufs (j + 1)) with
    | some m =>
      obtain ⟨pre, inner, post⟩ := m
      exact ⟨pre, inner, post, rfl⟩
    | none =>
      exfalso
      rw [show runSteps bufs (j + 2)
          = streamStep (runSteps bufs (j + 1)) (bufs (j + 1)) from rfl] at hk
      cases hct : containsTag tagOpen (bufs (j + 1)) with
      | true =>
        rw [streamStep_open hm hct] at hk
        exact Bool.noConfusion hk
      | false =>
        cases hpt : (runSteps bufs (j + 1)).isThinking with
        | true =>
          rw [streamStep_idle_thinking hm hct hpt] at hk
          have hk' : (runSteps bufs (j + 1)).isThinking = false := hk
          rw [hpt] at hk'
          exact Bool.noConfusion hk'
        | false =>
          obtain ⟨pre, inner, post, hmj⟩ := ih hpt
          obtain ⟨t, ht⟩ := hmono j
          have hext := thinkMatch_append t hmj
          rw [← ht] at hext
          rw [hext] at hm
          exact Option.noConfusion hm

/-- C6: `isThinking` is a monotonic one-way latch per message — over the
evaluations of one assistant message on cumulative (append-only) buffers,
once an evaluation has produced `isThinking = false`, every later evaluation
also produces `isThinking = false`. -/
theorem claim_C6 (bufs : Nat → List Char)
    (hmono : ∀ n, ∃ t, bufs (n + 1) = bufs n ++ t)
    (k m : Nat) (hkm : k ≤ m)
    (hk : (runSteps bufs (k + 1)).isThinking = false) :
    (runSteps bufs (m + 1)).isThinking = false := by
  obtain ⟨pre, inner, post, hpair⟩ := runSteps_false_pair hmono k hk
  obtain ⟨t, ht⟩ := append_chain hmono k m hkm
  have hmm : thinkMatch (bufs m) = some (pre, inner, post ++ t) := by
    rw [ht]; exact thinkMatch_append t hpair
  rw [show runSteps bufs (m + 1) = streamStep (runSteps bufs m) (bufs m) from rfl,
    streamStep_match hmm]

theorem claim_C6_witness :
    (runSteps (fun _ => strL "<think>a</think>") 2).isThinking = false :=
  claim_C6 (fun _ => strL "<think>a</think>")
    (fun _ => ⟨[], by rw [List.append_nil]⟩) 0 1 (by decide) (by decide)

/-- C7: the streaming parse step is idempotent — running it twice in
succession on the same buffer yields the same state as running it once,
for every prior state and buffer. -/
theorem claim_C7 (prev : StreamingState) (b : List Char) :
    streamStep (streamStep prev b) b = streamStep prev b := by
  cases hm : thinkMatch b with
  | some m =>
    obtain ⟨pre, inner, post⟩ := m
    rw [streamStep_match hm, streamStep_match hm]
  | none =>
    cases hct : containsTag tagOpen b with
    | true => rw [streamStep_open hm hct, streamStep_open hm hct]
    | false =>
      cases hpt : prev.isThinking with
      | true =>
        rw [streamStep_idle_thinking hm hct hpt]
        have hpt2 : ({ prev with thinking := trim b } : StreamingState).isThinking
            = true := hpt
        rw [streamStep_idle_thinking hm hct hpt2]
      | false =>
        rw [streamStep_idle_answer hm hct hpt]
        have hpt2 : ({ prev with content := trim b } : StreamingState).isThinking
            = false := hpt
        rw [streamStep_idle_answer hm hct hpt2]

/-- C8: the both-tags case is terminal and stable — for a buffer containing a
complete pair (decomposed around the first pair) and any appended suffix `t`,
parsing the extended buffer yields the same `thinking` and the same
`isThinking = false` as parsing the original; only `content` grows with the
post-tag suffix. -/
theorem claim_C8 (p q : StreamingState) (pre inner post t : List Char)
    (h1 : ∀ i, i < pre.length →
      occursAt tagOpen (pre ++ tagOpen ++ inner ++ tagClose ++ post) i = false)
    (h2 : ∀ j, j < inner.length →
      occursAt tagClose (pre ++ tagOpen ++ inner ++ tagClose ++ post)
        (pre.length + tagOpen.length + j) = false) :
    streamStep q (pre ++ tagOpen ++ inner ++ tagClose ++ post) =
      { thinking := trim inner, content := trim (pre ++ post), isThinking := false } ∧
    streamStep p ((pre ++ tagOpen ++ inner ++ tagClose ++ post) ++ t) =
      { thinking := trim inner, content := trim (pre ++ (post ++ t)),
        isThinking := false } := by
  have hm := thinkMatch_of_min_full pre inner post h1 h2
  exact ⟨streamStep_match hm, streamStep_match (thinkMatch_append t hm)⟩

theorem claim_C8_witness :
    streamStep initialState (strL "<think>a</think>b") =
      { thinking := strL "a", content := strL "b", isThinking := false } ∧
    streamStep initialState (strL "<think>a</think>bc") =
      { thinking := strL "a", content := strL "bc", isThinking := false } := by
  obtain ⟨hb, hbt⟩ := claim_C8 initialState initialState [] (strL "a") (strL "b")
    (strL "c") (by decide) (by decide)
  constructor
  · rw [show strL "<think>a</think>b"
        = ([] : List Char) ++ tagOpen ++ strL "a" ++ tagClose ++ strL "b" from by decide,
      hb]
    decide
  · rw [show strL "<think>a</think>bc"
        = (([] : List Char) ++ tagOpen ++ strL "a" ++ tagClose ++ strL "b") ++ strL "c"
        from by decide, hbt]
    decide

/-- C9: the streaming state is reset to
`{thinking := "", content := "", isThinking := true}` when the stream
finishes, and that is also the state a new assistant message starts from —
any event sequence following a finish event runs from the default state. -/
theorem claim_C9 :
    initialState = { thinking := [], content := [], isThinking := true } ∧
    (∀ s : StreamingState, chatStep s ChatEvent.finish = initialState) ∧
    (∀ (s : StreamingState) (evs : List ChatEvent),
      List.foldl chatStep s (ChatEvent.finish :: evs)
        = List.foldl chatStep initialState evs) := by
  refine ⟨rfl, fun s => rfl, fun s evs => ?_⟩
  rw [List.foldl_cons]
  rfl

/-- C10: for every completed-message buffer containing no complete
`<think>...</think>` pair, `parseMessage` returns no `thinking` field
(modelled as `none`) and `content` equal to the entire trimmed buffer —
the witness shows a literal unmatched `<think>` tag surviving inside
`content`. -/
theorem claim_C10 (s : List Char)
    (h : ∀ x y z, s ≠ x ++ tagOpen ++ y ++ tagClose ++ z) :
    parseMessage s = { thinking := none, content := trim s } := by
  have hm : thinkMatch s = none := by
    cases hm0 : thinkMatch s with
    | none => rfl
    | some m =>
      obtain ⟨pre, inner, post⟩ := m
      exact absurd (thinkMatch_sound hm0) (h pre inner post)
  simp only [parseMessage, hm]

theorem claim_C10_witness :
    parseMessage (strL "<think>oops") =
      { thinking := none, content := strL "<think>oops" } := by
  have h := claim_C10 (strL "<think>oops") (no_pair_of_short (by decide))
  rw [h]
  decide

end SandyAI
